import Mathlib

/-!
Shallow embedding of `src/graphql/src/execution/ast.rs` from the
Civitas-Fundamenta/graph-node repository: the execution-time AST of a
GraphQL query (selection sets, fields, directives), the object-type-set
narrowing machinery, and the type-resolution function that turns an
object, interface or union type name into the set of concrete object
types it denotes.

Rust values are modelled as follows: `r::Value` becomes the inductive
`Value` (only the boolean/non-boolean distinction matters to the code in
scope, so the float and composite variants are folded into representative
non-boolean constructors); `HashSet<String>` becomes `Finset String`;
`Vec` becomes `List`; a `BTreeMap` index that can panic is modelled by an
association-list lookup returning `Option`. Operations that can panic in
Rust (`expect`, map indexing) return `Option` or a dedicated `panic`
outcome; the recursion of `resolve_object_types` through the schema,
which Rust bounds only by the call stack, is modelled with explicit fuel
whose exhaustion is a dedicated `diverge` outcome.
-/

namespace GqlAst

/-- Model of the source position attached to AST nodes (graphql_parser
Pos); only its presence and equality matter here. -/
structure Pos where
  line : Nat
  column : Nat
deriving DecidableEq, Repr

/-- Model of the coerced GraphQL value type r::Value. The code in scope
only distinguishes booleans from everything else; the remaining Rust
variants are represented by the non-boolean constructors below. -/
inductive Value where
  | null : Value
  | boolean : Bool → Value
  | int : Int → Value
  | str : String → Value
  | enum : String → Value
deriving DecidableEq, Repr

/-- Directive from ast.rs: a named annotation with ordered arguments. -/
structure Directive where
  position : Pos
  name : String
  arguments : List (String × Value)
deriving DecidableEq, Repr

/-- Directive.argument_value: first argument with the given name. -/
def Directive.argument_value (d : Directive) (name : String) : Option Value :=
  (d.arguments.find? (fun p => p.1 == name)).map (fun p => p.2)

/-- Directive.eval_if: a missing if argument is true, a boolean if
argument is its value, any other value is false. -/
def Directive.eval_if (d : Directive) : Bool :=
  match d.argument_value "if" with
  | none => true
  | some (Value.boolean b) => b
  | some _ => false

/-- Directive.skip: true when the directive is include with a false if
condition, or skip with a true if condition; false otherwise. -/
def Directive.skip (d : Directive) : Bool :=
  match d.name with
  | "include" => !d.eval_if
  | "skip" => d.eval_if
  | _ => false

mutual
/-- SelectionSet from ast.rs: a table mapping object type names to the
list of fields selected for that type. -/
inductive SelectionSet where
  | mk : List (String × List Field) → SelectionSet

/-- Field from ast.rs: position, optional alias, name, coerced
arguments, directives, and a nested selection set. -/
inductive Field where
  | mk : Pos → Option String → String → List (String × Value) →
      List Directive → SelectionSet → Field
end

mutual
/-- Structural equality test on selection sets, mirroring the derived
PartialEq of the Rust types. -/
def ssBeq : SelectionSet → SelectionSet → Bool
  | .mk i1, .mk i2 => itemsBeq i1 i2
termination_by structural a b => a

/-- Structural equality test on item lists. -/
def itemsBeq : List (String × List Field) → List (String × List Field) → Bool
  | [], [] => true
  | (n1, f1) :: r1, (n2, f2) :: r2 => n1 == n2 && bucketBeq f1 f2 && itemsBeq r1 r2
  | _, _ => false
termination_by structural a b => a

/-- Structural equality test on field lists. -/
def bucketBeq : List Field → List Field → Bool
  | [], [] => true
  | f1 :: r1, f2 :: r2 => fieldBeq f1 f2 && bucketBeq r1 r2
  | _, _ => false
termination_by structural a b => a

/-- Structural equality test on fields. -/
def fieldBeq : Field → Field → Bool
  | .mk p1 a1 n1 ar1 d1 s1, .mk p2 a2 n2 ar2 d2 s2 =>
    p1 == p2 && a1 == a2 && n1 == n2 && ar1 == ar2 && d1 == d2 && ssBeq s1 s2
termination_by structural a b => a
end

mutual
theorem ssBeq_iff : ∀ a b : SelectionSet, ssBeq a b = true ↔ a = b
  | .mk i1, .mk i2 => by
    rw [ssBeq, itemsBeq_iff i1 i2]
    exact ⟨fun h => by rw [h], fun h => by cases h; rfl⟩

theorem itemsBeq_iff : ∀ a b : List (String × List Field), itemsBeq a b = true ↔ a = b
  | [], [] => by simp [itemsBeq]
  | [], (n2, f2) :: r2 => by simp [itemsBeq]
  | (n1, f1) :: r1, [] => by simp [itemsBeq]
  | (n1, f1) :: r1, (n2, f2) :: r2 => by
    rw [itemsBeq, Bool.and_eq_true, Bool.and_eq_true,
      bucketBeq_iff f1 f2, itemsBeq_iff r1 r2, beq_iff_eq]
    constructor
    · rintro ⟨⟨h1, h2⟩, h3⟩
      rw [h1, h2, h3]
    · intro h
      injection h with h1 h2
      injection h1 with ha hb
      exact ⟨⟨ha, hb⟩, h2⟩

theorem bucketBeq_iff : ∀ a b : List Field, bucketBeq a b = true ↔ a = b
  | [], [] => by simp [bucketBeq]
  | [], f2 :: r2 => by simp [bucketBeq]
  | f1 :: r1, [] => by simp [bucketBeq]
  | f1 :: r1, f2 :: r2 => by
    rw [bucketBeq, Bool.and_eq_true, fieldBeq_iff f1 f2, bucketBeq_iff r1 r2]
    constructor
    · rintro ⟨h1, h2⟩
      rw [h1, h2]
    · intro h
      injection h with h1 h2
      exact ⟨h1, h2⟩

theorem fieldBeq_iff : ∀ a b : Field, fieldBeq a b = true ↔ a = b
  | .mk p1 a1 n1 ar1 d1 s1, .mk p2 a2 n2 ar2 d2 s2 => by
    rw [fieldBeq, Bool.and_eq_true, Bool.and_eq_true, Bool.and_eq_true,
      Bool.and_eq_true, Bool.and_eq_true, ssBeq_iff s1 s2,
      beq_iff_eq, beq_iff_eq, beq_iff_eq, beq_iff_eq, beq_iff_eq]
    constructor
    · rintro ⟨⟨⟨⟨⟨h1, h2⟩, h3⟩, h4⟩, h5⟩, h6⟩
      rw [h1, h2, h3, h4, h5, h6]
    · intro h
      injection h with h1 h2 h3 h4 h5 h6
      exact ⟨⟨⟨⟨⟨h1, h2⟩, h3⟩, h4⟩, h5⟩, h6⟩
end

instance : DecidableEq SelectionSet := fun a b =>
  decidable_of_iff (ssBeq a b = true) (ssBeq_iff a b)

instance : DecidableEq Field := fun a b =>
  decidable_of_iff (fieldBeq a b = true) (fieldBeq_iff a b)

/-- The items list of a SelectionSet. -/
def SelectionSet.items : SelectionSet → List (String × List Field)
  | .mk items => items

/-- The position of a Field. -/
def Field.position : Field → Pos
  | .mk p _ _ _ _ _ => p

/-- The alias of a Field. -/
def Field.alias : Field → Option String
  | .mk _ a _ _ _ _ => a

/-- The name of a Field. -/
def Field.name : Field → String
  | .mk _ _ n _ _ _ => n

/-- The arguments of a Field. -/
def Field.arguments : Field → List (String × Value)
  | .mk _ _ _ args _ _ => args

/-- The directives of a Field. -/
def Field.directives : Field → List Directive
  | .mk _ _ _ _ ds _ => ds

/-- The nested selection set of a Field. -/
def Field.selection_set : Field → SelectionSet
  | .mk _ _ _ _ _ ss => ss

/-- Field.response_key: alias if present, else name. -/
def Field.response_key (f : Field) : String :=
  match f.alias with
  | some a => a
  | none => f.name

/-- Field.prepend_directives: swap in the new directives, then extend
with the old ones, so the new directives sit ahead of the old. -/
def Field.prepend_directives (f : Field) (directives : List Directive) : Field :=
  match f with
  | .mk p a n args ds ss => .mk p a n args (directives ++ ds) ss

mutual
/-- Structural size of a selection set, ignoring directives and
arguments; used as the termination measure of merge. -/
def ssSize : SelectionSet → Nat
  | .mk items => 1 + itemsSize items

/-- Structural size of an item list. -/
def itemsSize : List (String × List Field) → Nat
  | [] => 0
  | (_, fs) :: rest => 1 + bucketSize fs + itemsSize rest

/-- Structural size of a field list. -/
def bucketSize : List Field → Nat
  | [] => 0
  | f :: fs => 1 + fieldSize f + bucketSize fs

/-- Structural size of a field. -/
def fieldSize : Field → Nat
  | .mk _ _ _ _ _ ss => 1 + ssSize ss
end

@[simp]
theorem selection_set_prepend (f : Field) (ds : List Directive) :
    (f.prepend_directives ds).selection_set = f.selection_set := by
  cases f
  rfl

theorem fieldSize_eq (f : Field) : fieldSize f = 1 + ssSize f.selection_set := by
  cases f
  rfl

/-- Replace the nested selection set of a field, keeping every other
component; models the in-place mutation of field.selection_set. -/
def Field.with_selection_set : Field → SelectionSet → Field
  | .mk p a n args ds _, ss => .mk p a n args ds ss

/-- First bucket of the item list with the given type name, modelling
items.iter_mut().find on the name. -/
def findBucket : List (String × List Field) → String → Option (List Field)
  | [], _ => none
  | (n, fs) :: rest, name => if n = name then some fs else findBucket rest name

/-- Replace the field list of the first bucket with the given type name,
modelling the in-place mutation of the bucket that find returned. -/
def setBucket : List (String × List Field) → String → List Field →
    List (String × List Field)
  | [], _, _ => []
  | (n, fs) :: rest, name, newFs =>
    if n = name then (n, newFs) :: rest else (n, fs) :: setBucket rest name newFs

mutual
/-- SelectionSet.merge from ast.rs: fold the buckets of other into the
matching buckets of self, prepending the directives to every incoming
field. The Rust expect panic (a bucket of other missing from self) is
modelled as none. -/
def SelectionSet.merge : SelectionSet → SelectionSet → List Directive →
    Option SelectionSet
  | .mk selfItems, .mk otherItems, directives =>
    (mergeItems selfItems directives otherItems).map SelectionSet.mk
termination_by self other directives => (ssSize other, 0)
decreasing_by
  all_goals simp_wf
  all_goals
    first
    | exact Prod.Lex.left _ _ (by
        simp only [ssSize, itemsSize, bucketSize, fieldSize_eq, selection_set_prepend]
        omega)
    | exact Prod.Lex.right _ (by
        try simp only [List.length_cons]
        omega)

/-- Inner loop of SelectionSet.merge over the buckets of other. -/
def mergeItems : List (String × List Field) → List Directive →
    List (String × List Field) → Option (List (String × List Field))
  | selfItems, _, [] => some selfItems
  | selfItems, directives, (otherName, otherFields) :: rest =>
    match findBucket selfItems otherName with
    | none => none
    | some bucket =>
      match mergeFields bucket directives otherFields with
      | none => none
      | some newBucket =>
        mergeItems (setBucket selfItems otherName newBucket) directives rest
termination_by selfItems directives otherItems => (itemsSize otherItems, 0)
decreasing_by
  all_goals simp_wf
  all_goals
    first
    | exact Prod.Lex.left _ _ (by
        simp only [ssSize, itemsSize, bucketSize, fieldSize_eq, selection_set_prepend]
        omega)
    | exact Prod.Lex.right _ (by
        try simp only [List.length_cons]
        omega)

/-- Inner loop of SelectionSet.merge over the fields of one bucket of
other: prepend the directives to each field and merge it in. -/
def mergeFields : List Field → List Directive → List Field → Option (List Field)
  | acc, _, [] => some acc
  | acc, directives, f :: fs =>
    match SelectionSet.merge_field acc (f.prepend_directives directives) with
    | none => none
    | some acc2 => mergeFields acc2 directives fs
termination_by acc directives fs => (bucketSize fs, 0)
decreasing_by
  all_goals simp_wf
  all_goals
    first
    | exact Prod.Lex.left _ _ (by
        simp only [ssSize, itemsSize, bucketSize, fieldSize_eq, selection_set_prepend]
        omega)
    | exact Prod.Lex.right _ (by
        try simp only [List.length_cons]
        omega)

/-- SelectionSet.merge_field from ast.rs: if a field with the same
response key exists, recursively merge the nested selection sets into
it, else append the new field at the end. -/
def SelectionSet.merge_field : List Field → Field → Option (List Field)
  | [], new_field => some [new_field]
  | f :: fs, new_field =>
    if f.response_key = new_field.response_key then
      (SelectionSet.merge f.selection_set new_field.selection_set []).map
        (fun ss => f.with_selection_set ss :: fs)
    else
      (SelectionSet.merge_field fs new_field).map (fun fs2 => f :: fs2)
termination_by fields new_field => (ssSize new_field.selection_set, fields.length)
decreasing_by
  all_goals simp_wf
  all_goals
    first
    | exact Prod.Lex.left _ _ (by
        simp only [ssSize, itemsSize, bucketSize, fieldSize_eq, selection_set_prepend]
        omega)
    | exact Prod.Lex.right _ (by
        try simp only [List.length_cons]
        omega)
end

/-- SelectionSet.new: one empty bucket per given type name, in order. -/
def SelectionSet.new (types : List String) : SelectionSet :=
  .mk (types.map fun name => (name, []))

/-- SelectionSet.empty_from: the same type buckets as other, with all
fields dropped. -/
def SelectionSet.empty_from (other : SelectionSet) : SelectionSet :=
  .mk (other.items.map fun p => (p.1, []))

/-- SelectionSet.is_empty: no bucket selects any field. -/
def SelectionSet.is_empty (s : SelectionSet) : Bool :=
  s.items.all fun p => p.2.isEmpty

/-- Field.is_leaf: the nested selection set is empty. -/
def Field.is_leaf (f : Field) : Bool :=
  f.selection_set.is_empty

/-- Inner loop of SelectionSet.push over the buckets of self: merge the
new field into every bucket. A panic of the nested merge is none. -/
def pushItems : List (String × List Field) → Field →
    Option (List (String × List Field))
  | [], _ => some []
  | (n, fields) :: rest, new_field =>
    match SelectionSet.merge_field fields new_field with
    | none => none
    | some fields2 => (pushItems rest new_field).map (fun rest2 => (n, fields2) :: rest2)

/-- SelectionSet.push from ast.rs: merge the field into every bucket. -/
def SelectionSet.push : SelectionSet → Field → Option SelectionSet
  | .mk items, new_field => (pushItems items new_field).map SelectionSet.mk

/-- SelectionSet.push_fields from ast.rs: push each field in order. -/
def SelectionSet.push_fields : SelectionSet → List Field → Option SelectionSet
  | s, [] => some s
  | s, f :: fs =>
    match s.push f with
    | none => none
    | some s2 => s2.push_fields fs

/-- Tail loop of single_field: every remaining bucket must hold exactly
the one field already seen. -/
def single_field_rest (field : Field) : List (String × List Field) → Option Field
  | [] => some field
  | (_, fields) :: rest =>
    match fields with
    | [f] => if f = field then single_field_rest field rest else none
    | _ => none

/-- SelectionSet.single_field from ast.rs: the unique common field if
every bucket holds exactly one field and they all agree, else none. -/
def SelectionSet.single_field : SelectionSet → Option Field
  | .mk [] => none
  | .mk ((_, fields) :: rest) =>
    match fields with
    | [f] => single_field_rest f rest
    | _ => none

/-- Model of s::TypeDefinition, keeping the name and, for a union, its
member type names, which is all the code in scope reads. -/
inductive TypeDefinition where
  | object (name : String)
  | interface (name : String)
  | union (name : String) (types : List String)
  | scalar (name : String)
  | enum (name : String)
  | inputObject (name : String)
deriving DecidableEq, Repr

/-- The name of a type definition. -/
def TypeDefinition.name : TypeDefinition → String
  | .object n => n
  | .interface n => n
  | .union n _ => n
  | .scalar n => n
  | .enum n => n
  | .inputObject n => n

/-- Model of the Schema the code consumes: the document is named-type
lookup, and types_for_interface is the precomputed map from interface
name to the names of the object types implementing it (the Rust map
holds the object type values themselves; only their names are read). -/
structure Schema where
  document : List TypeDefinition
  types_for_interface : List (String × List String)
deriving DecidableEq, Repr

/-- Named-type lookup on the schema document. -/
def Schema.get_named_type (schema : Schema) (name : String) : Option TypeDefinition :=
  schema.document.find? (fun td => td.name == name)

/-- Lookup in the precomputed interface-implementors table; none models
the panicking BTreeMap index for a missing key. -/
def Schema.types_for (schema : Schema) (intf : String) : Option (List String) :=
  (schema.types_for_interface.find? (fun p => p.1 == intf)).map (fun p => p.2)

/-- The two QueryExecutionError variants the code in scope constructs. -/
inductive QueryExecutionError where
  | abstractTypeError (name : String)
  | namedTypeError (name : String)
deriving DecidableEq, Repr

/-- Outcome of running a fallible Rust computation: a value, a returned
error, a panic, or non-termination (modelled as fuel exhaustion). -/
inductive RunResult (α : Type) where
  | ok (val : α)
  | err (e : QueryExecutionError)
  | panicked
  | diverge
deriving DecidableEq, Repr

/-- Loop of the union arm of resolve_object_types: resolve each member
in order with the given resolver and extend the accumulated set,
propagating the first failure. -/
def resolveUnion (resolve : String → RunResult (Finset String)) :
    List String → Finset String → RunResult (Finset String)
  | [], acc => .ok acc
  | ty :: tys, acc =>
    match resolve ty with
    | .ok s => resolveUnion resolve tys (acc ∪ s)
    | .err e => .err e
    | .panicked => .panicked
    | .diverge => .diverge

/-- resolve_object_types from ast.rs: look the name up in the schema and
resolve interfaces and unions to a set of concrete object type names.
The fuel argument bounds the recursion depth through unions, which Rust
bounds only by its call stack. -/
def resolve_object_types : Nat → Schema → String → RunResult (Finset String)
  | 0, _, _ => .diverge
  | fuel + 1, schema, name =>
    match schema.get_named_type name with
    | none => .err (.abstractTypeError name)
    | some (.interface intf) =>
      match schema.types_for intf with
      | none => .panicked
      | some objs => .ok objs.toFinset
    | some (.union _ tys) =>
      resolveUnion (fun ty => resolve_object_types fuel schema ty) tys ∅
    | some (.object n) => .ok {n}
    | some (.scalar _) => .err (.namedTypeError name)
    | some (.enum _) => .err (.namedTypeError name)
    | some (.inputObject _) => .err (.namedTypeError name)

/-- ObjectTypeSet from ast.rs: unconstrained, or an explicit finite set
of concrete object type names. -/
inductive ObjectTypeSet where
  | Any : ObjectTypeSet
  | Only : Finset String → ObjectTypeSet
deriving DecidableEq

/-- ObjectTypeSet.matches_name: Any matches everything, Only matches
its members. -/
def ObjectTypeSet.matches_name : ObjectTypeSet → String → Bool
  | .Any, _ => true
  | .Only set, name => decide (name ∈ set)

/-- ObjectTypeSet.intersect from ast.rs: Any is neutral on the left;
Only keeps the members the other side matches. -/
def ObjectTypeSet.intersect : ObjectTypeSet → ObjectTypeSet → ObjectTypeSet
  | .Any, other => other
  | .Only set, other => .Only (set.filter (fun ty => other.matches_name ty = true))

/-- Model of the q::TypeCondition consumed by convert. -/
inductive TypeCondition where
  | on (name : String)
deriving DecidableEq, Repr

/-- ObjectTypeSet.from_name: resolve the name and wrap the set as Only,
propagating every failure unchanged. -/
def ObjectTypeSet.from_name (fuel : Nat) (schema : Schema) (name : String) :
    RunResult ObjectTypeSet :=
  match resolve_object_types fuel schema name with
  | .ok set => .ok (.Only set)
  | .err e => .err e
  | .panicked => .panicked
  | .diverge => .diverge

/-- ObjectTypeSet.convert: no type condition is Any, a condition on a
name goes through from_name. -/
def ObjectTypeSet.convert (fuel : Nat) (schema : Schema) :
    Option TypeCondition → RunResult ObjectTypeSet
  | some (.on name) => ObjectTypeSet.from_name fuel schema name
  | none => .ok .Any

/-- Evaluation of single_field_rest: it returns the field it was seeded
with exactly when every remaining bucket is the singleton of that field. -/
theorem single_field_rest_iff (f g : Field) :
    ∀ rest : List (String × List Field),
      single_field_rest f rest = some g ↔ g = f ∧ ∀ p ∈ rest, p.2 = [f]
  | [] => by
    simp [single_field_rest, eq_comm]
  | (n, fields) :: rest => by
    match fields with
    | [] =>
      simp only [single_field_rest]
      constructor
      · intro h
        exact absurd h (by simp)
      · rintro ⟨h1, h2⟩
        have := h2 (n, []) (List.mem_cons_self _ _)
        simp at this
    | [x] =>
      rw [single_field_rest]
      by_cases hx : x = f
      · rw [if_pos hx, single_field_rest_iff f g rest]
        constructor
        · rintro ⟨h1, h2⟩
          refine ⟨h1, ?_⟩
          intro p hp
          rcases List.mem_cons.mp hp with h | h
          · rw [h]
            simp [hx]
          · exact h2 p h
        · rintro ⟨h1, h2⟩
          exact ⟨h1, fun p hp => h2 p (List.mem_cons_of_mem _ hp)⟩
      · rw [if_neg hx]
        constructor
        · intro h
          exact absurd h (by simp)
        · rintro ⟨h1, h2⟩
          have := h2 (n, [x]) (List.mem_cons_self _ _)
          simp at this
          exact absurd this hx
    | x :: y :: tl =>
      simp only [single_field_rest]
      constructor
      · intro h
        exact absurd h (by simp)
      · rintro ⟨h1, h2⟩
        have := h2 (n, x :: y :: tl) (List.mem_cons_self _ _)
        simp at this

/-- C6: single_field returns some f exactly when the selection set has
at least one bucket and every bucket is the singleton list of that
structurally equal field f; in every other case it returns none. -/
theorem claim6_single_field (items : List (String × List Field)) (f : Field) :
    (SelectionSet.mk items).single_field = some f ↔
      items ≠ [] ∧ ∀ p ∈ items, p.2 = [f] := by
  match items with
  | [] => simp [SelectionSet.single_field]
  | (n, fields) :: rest =>
    match fields with
    | [] =>
      simp only [SelectionSet.single_field]
      constructor
      · intro h
        exact absurd h (by simp)
      · rintro ⟨h1, h2⟩
        have := h2 (n, []) (List.mem_cons_self _ _)
        simp at this
    | [x] =>
      rw [SelectionSet.single_field]
      rw [single_field_rest_iff x f rest]
      constructor
      · rintro ⟨h1, h2⟩
        refine ⟨by simp, ?_⟩
        intro p hp
        rcases List.mem_cons.mp hp with h | h
        · rw [h]
          simp [h1]
        · rw [h2 p h, h1]
      · rintro ⟨h1, h2⟩
        have hx := h2 (n, [x]) (List.mem_cons_self _ _)
        simp only at hx
        have hxf : f = x := by
          injection hx with hh
          exact hh.symm
        refine ⟨hxf, ?_⟩
        intro p hp
        rw [h2 p (List.mem_cons_of_mem _ hp), hxf]
    | x :: y :: tl =>
      simp only [SelectionSet.single_field]
      constructor
      · intro h
        exact absurd h (by simp)
      · rintro ⟨h1, h2⟩
        have := h2 (n, x :: y :: tl) (List.mem_cons_self _ _)
        simp at this

/-- C2: Directive.skip returns true exactly when the directive is named
include with an if argument evaluating false or named skip with an if
argument evaluating true; a missing if argument evaluates true, a
non-boolean if value evaluates false, and any other directive name never
causes skipping. -/
theorem claim2_directive_skip (d : Directive) :
    (d.skip = true ↔
      (d.name = "include" ∧ d.eval_if = false) ∨
        (d.name = "skip" ∧ d.eval_if = true)) ∧
    (d.argument_value "if" = none → d.eval_if = true) ∧
    (∀ b, d.argument_value "if" = some (Value.boolean b) → d.eval_if = b) ∧
    (∀ v, d.argument_value "if" = some v → (∀ b, v ≠ Value.boolean b) →
      d.eval_if = false) ∧
    (d.name ≠ "include" → d.name ≠ "skip" → d.skip = false) := by
  refine ⟨?_, ?_, ?_, ?_, ?_⟩
  · rw [Directive.skip]
    split
    · rename_i h
      cases hb : d.eval_if <;> simp [h, hb]
    · rename_i h
      cases hb : d.eval_if <;> simp [h, hb]
    · rename_i h1 h2
      constructor
      · intro hfalse
        exact absurd hfalse (by decide)
      · rintro (⟨hA, _⟩ | ⟨hB, _⟩)
        · exact absurd hA h1
        · exact absurd hB h2
  · intro h
    rw [Directive.eval_if, h]
  · intro b h
    rw [Directive.eval_if, h]
  · intro v h hb
    rw [Directive.eval_if, h]
    match v, hb with
    | Value.null, _ => rfl
    | Value.boolean b, hb => exact absurd rfl (hb b)
    | Value.int _, _ => rfl
    | Value.str _, _ => rfl
    | Value.enum _, _ => rfl
  · intro h1 h2
    rw [Directive.skip]
    split
    · rename_i h
      exact absurd h h1
    · rename_i h
      exact absurd h h2
    · rfl

/-- Witness for C2 at the concrete directive include(if: false). -/
theorem claim2_witness :
    Directive.skip ⟨⟨0, 0⟩, "include", [("if", Value.boolean false)]⟩ = true ∧
    Directive.skip ⟨⟨0, 0⟩, "deprecated", []⟩ = false := by
  constructor
  · exact (claim2_directive_skip _).1.mpr (Or.inl ⟨rfl, by decide⟩)
  · exact (claim2_directive_skip _).2.2.2.2 (by decide) (by decide)

/-- C3: Any is a left identity of intersect, Only S is unchanged by
intersecting with Any, intersecting two explicit sets is set
intersection, and the result of intersecting two explicit sets has at
most min cardinality and never gains members. -/
theorem claim3_intersect (X : ObjectTypeSet) (S S1 S2 : Finset String) :
    ObjectTypeSet.Any.intersect X = X ∧
    (ObjectTypeSet.Only S).intersect ObjectTypeSet.Any = ObjectTypeSet.Only S ∧
    (ObjectTypeSet.Only S1).intersect (ObjectTypeSet.Only S2) =
      ObjectTypeSet.Only (S1 ∩ S2) ∧
    (∀ T, (ObjectTypeSet.Only S1).intersect (ObjectTypeSet.Only S2) =
        ObjectTypeSet.Only T →
      T.card ≤ min S1.card S2.card ∧ T ⊆ S1) := by
  have hint : (ObjectTypeSet.Only S1).intersect (ObjectTypeSet.Only S2) =
      ObjectTypeSet.Only (S1 ∩ S2) := by
    rw [ObjectTypeSet.intersect]
    congr 1
    ext x
    simp [Finset.mem_filter, Finset.mem_inter, ObjectTypeSet.matches_name]
  refine ⟨rfl, ?_, hint, ?_⟩
  · rw [ObjectTypeSet.intersect]
    congr 1
    simp [ObjectTypeSet.matches_name]
  · intro T hT
    rw [hint] at hT
    injection hT with h
    subst h
    refine ⟨le_min ?_ ?_, Finset.inter_subset_left⟩
    · exact Finset.card_le_card Finset.inter_subset_left
    · exact Finset.card_le_card Finset.inter_subset_right
/-- Witness for C3 at concrete explicit sets. -/
theorem claim3_witness :
    (ObjectTypeSet.Only {"A", "B"}).intersect (ObjectTypeSet.Only {"B", "C"}) =
      ObjectTypeSet.Only ({"A", "B"} ∩ {"B", "C"}) ∧
    ({"A", "B"} ∩ {"B", "C"} : Finset String).card ≤
      min ({"A", "B"} : Finset String).card ({"B", "C"} : Finset String).card := by
  have h := claim3_intersect ObjectTypeSet.Any {"A"} {"A", "B"} {"B", "C"}
  exact ⟨h.2.2.1, ((h.2.2.2 _ h.2.2.1).1)⟩

/-- A schema lookup hit always carries the looked-up name. -/
theorem get_named_type_name {schema : Schema} {name : String} {td : TypeDefinition}
    (h : schema.get_named_type name = some td) : td.name = name := by
  have := List.find?_some h
  exact beq_iff_eq.mp this

/-- A schema lookup hit is a member of the document. -/
theorem get_named_type_mem {schema : Schema} {name : String} {td : TypeDefinition}
    (h : schema.get_named_type name = some td) : td ∈ schema.document :=
  List.mem_of_find?_eq_some h

/-- A types_for hit comes from an entry of the table. -/
theorem types_for_entry {schema : Schema} {i : String} {objs : List String}
    (h : schema.types_for i = some objs) :
    ∃ p ∈ schema.types_for_interface, p.2 = objs := by
  rw [Schema.types_for] at h
  cases hf : schema.types_for_interface.find? (fun p => p.1 == i) with
  | none => rw [hf] at h; simp at h
  | some p =>
    rw [hf] at h
    simp at h
    exact ⟨p, List.mem_of_find?_eq_some hf, h⟩

/-- Membership in the set a successful resolveUnion returns: the
accumulator plus everything some member resolves to. -/
theorem resolveUnion_ok_mem (resolve : String → RunResult (Finset String)) :
    ∀ (tys : List String) (acc s : Finset String),
      resolveUnion resolve tys acc = .ok s →
      ∀ x, x ∈ s ↔ x ∈ acc ∨ ∃ ty ∈ tys, ∃ sty, resolve ty = .ok sty ∧ x ∈ sty
  | [], acc, s => by
    intro h x
    rw [resolveUnion] at h
    injection h with h
    rw [h]
    simp
  | ty :: tys, acc, s => by
    intro h x
    cases hr : resolve ty with
    | ok s1 =>
      simp only [resolveUnion, hr] at h
      have ih := resolveUnion_ok_mem resolve tys (acc ∪ s1) s h x
      rw [ih]
      constructor
      · rintro (hu | ⟨t, ht, sty, hres, hmem⟩)
        · rcases Finset.mem_union.mp hu with ha | h1
          · exact Or.inl ha
          · exact Or.inr ⟨ty, List.mem_cons_self _ _, s1, hr, h1⟩
        · exact Or.inr ⟨t, List.mem_cons_of_mem _ ht, sty, hres, hmem⟩
      · rintro (ha | ⟨t, ht, sty, hres, hmem⟩)
        · exact Or.inl (Finset.mem_union_left _ ha)
        · rcases List.mem_cons.mp ht with rfl | ht2
          · rw [hr] at hres
            injection hres with hres
            exact Or.inl (Finset.mem_union_right _ (hres ▸ hmem))
          · exact Or.inr ⟨t, ht2, sty, hres, hmem⟩
    | err e => simp [resolveUnion, hr] at h
    | panicked => simp [resolveUnion, hr] at h
    | diverge => simp [resolveUnion, hr] at h

/-- A non-ok outcome of resolveUnion is the outcome of some member. -/
theorem resolveUnion_fail (resolve : String → RunResult (Finset String)) :
    ∀ (tys : List String) (acc : Finset String) (r : RunResult (Finset String)),
      resolveUnion resolve tys acc = r → (∀ s, r ≠ .ok s) →
      ∃ ty ∈ tys, resolve ty = r
  | [], acc, r => by
    intro h hne
    rw [resolveUnion] at h
    exact absurd h.symm (hne acc)
  | ty :: tys, acc, r => by
    intro h hne
    cases hr : resolve ty with
    | ok s1 =>
      simp only [resolveUnion, hr] at h
      obtain ⟨t, ht, hres⟩ := resolveUnion_fail resolve tys (acc ∪ s1) r h hne
      exact ⟨t, List.mem_cons_of_mem _ ht, hres⟩
    | err e =>
      simp only [resolveUnion, hr] at h
      exact ⟨ty, List.mem_cons_self _ _, by rw [hr, h]⟩
    | panicked =>
      simp only [resolveUnion, hr] at h
      exact ⟨ty, List.mem_cons_self _ _, by rw [hr, h]⟩
    | diverge =>
      simp only [resolveUnion, hr] at h
      exact ⟨ty, List.mem_cons_self _ _, by rw [hr, h]⟩

/-- Every name in the interface-implementors table names an object type
of the schema document. This is what the Rust types guarantee by
construction, since the table values are ObjectType values. -/
def objectsOnly (schema : Schema) : Prop :=
  ∀ p ∈ schema.types_for_interface, ∀ n ∈ p.2,
    schema.get_named_type n = some (.object n)

/-- A successful resolve_object_types only returns names of object
types of the schema, given that the implementors table does. -/
theorem resolve_only_objects (schema : Schema) (hobj : objectsOnly schema) :
    ∀ (fuel : Nat) (name : String) (s : Finset String),
      resolve_object_types fuel schema name = .ok s →
      ∀ n ∈ s, schema.get_named_type n = some (.object n)
  | 0, name, s => by
    intro h
    simp [resolve_object_types] at h
  | fuel + 1, name, s => by
    intro h n hn
    cases hg : schema.get_named_type name with
    | none => simp [resolve_object_types, hg] at h
    | some td =>
      cases td with
      | interface i =>
        cases ht : schema.types_for i with
        | none => simp [resolve_object_types, hg, ht] at h
        | some objs =>
          simp only [resolve_object_types, hg, ht] at h
          injection h with h
          obtain ⟨p, hp, hpd⟩ := types_for_entry ht
          refine hobj p hp n ?_
          rw [hpd]
          exact List.mem_toFinset.mp (h ▸ hn)
      | union u tys =>
        simp only [resolve_object_types, hg] at h
        have hm := (resolveUnion_ok_mem _ tys ∅ s h n).mp hn
        rcases hm with h0 | ⟨ty, hty, sty, hres, hmem⟩
        · simp at h0
        · exact resolve_only_objects schema hobj fuel ty sty hres n hmem
      | object m =>
        simp only [resolve_object_types, hg] at h
        injection h with h
        have hnm : n = m := by
          rw [← h] at hn
          simpa using hn
        have hname := get_named_type_name hg
        rw [TypeDefinition.name] at hname
        rw [hnm, hname]
        rw [hname] at hg
        exact hg
      | scalar m => simp [resolve_object_types, hg] at h
      | enum m => simp [resolve_object_types, hg] at h
      | inputObject m => simp [resolve_object_types, hg] at h

/-- C1: resolve_object_types maps an object type name to the singleton
of itself, an interface name to exactly the precomputed implementors,
and a union name to the set union of recursively resolving its members;
whenever it succeeds and the implementors table holds only object type
names, the returned set holds only object type names. -/
theorem claim1_resolve_object_types (fuel : Nat) (schema : Schema) (name : String) :
    (∀ n, schema.get_named_type name = some (.object n) →
      resolve_object_types (fuel + 1) schema name = .ok {n}) ∧
    (∀ i objs, schema.get_named_type name = some (.interface i) →
      schema.types_for i = some objs →
      resolve_object_types (fuel + 1) schema name = .ok objs.toFinset) ∧
    (∀ u tys s, schema.get_named_type name = some (.union u tys) →
      resolve_object_types (fuel + 1) schema name = .ok s →
      ∀ x, x ∈ s ↔ ∃ ty ∈ tys, ∃ sty,
        resolve_object_types fuel schema ty = .ok sty ∧ x ∈ sty) ∧
    (objectsOnly schema → ∀ s,
      resolve_object_types fuel schema name = .ok s →
      ∀ n ∈ s, schema.get_named_type n = some (.object n)) := by
  refine ⟨?_, ?_, ?_, ?_⟩
  · intro n hg
    simp [resolve_object_types, hg]
  · intro i objs hg ht
    simp [resolve_object_types, hg, ht]
  · intro u tys s hg hok x
    simp only [resolve_object_types, hg] at hok
    have hm := resolveUnion_ok_mem _ tys ∅ s hok x
    rw [hm]
    simp
  · intro hobj s h
    exact resolve_only_objects schema hobj fuel name s h

/-- Example schema: interface Node implemented by Cat and Dog, union
Pets of Cat and Dog, a union naming a type absent from the schema, a
scalar, and an interface missing from the implementors table. -/
def exSchema : Schema :=
  { document := [.interface "Node", .object "Cat", .object "Dog",
                 .union "Pets" ["Cat", "Dog"], .union "BadUnion" ["Missing"],
                 .scalar "ID", .interface "Orphan"],
    types_for_interface := [("Node", ["Cat", "Dog"])] }

/-- Witness for C1: resolving the interface Node yields exactly its
implementors, and membership in the resolved union Pets is membership
in the resolution of some member. -/
theorem claim1_witness :
    resolve_object_types 2 exSchema "Node" = .ok (["Cat", "Dog"].toFinset) ∧
    (∀ x, x ∈ (insert "Cat" {"Dog"} : Finset String) ↔ ∃ ty ∈ ["Cat", "Dog"], ∃ sty,
      resolve_object_types 1 exSchema ty = .ok sty ∧ x ∈ sty) := by
  have h := claim1_resolve_object_types 1 exSchema "Node"
  have h2 := claim1_resolve_object_types 1 exSchema "Pets"
  exact ⟨h.2.1 "Node" ["Cat", "Dog"] rfl rfl,
    h2.2.2.1 "Pets" ["Cat", "Dog"] _ rfl (by decide)⟩

/-- A resolution failure with an abstract-type error names a type that
is absent from the schema. -/
theorem resolve_abstract_err (schema : Schema) :
    ∀ (fuel : Nat) (name m : String),
      resolve_object_types fuel schema name = .err (.abstractTypeError m) →
      schema.get_named_type m = none
  | 0, name, m => by
    intro h
    simp [resolve_object_types] at h
  | fuel + 1, name, m => by
    intro h
    cases hg : schema.get_named_type name with
    | none =>
      simp only [resolve_object_types, hg] at h
      injection h with h
      injection h with h
      rw [← h]
      exact hg
    | some td =>
      cases td with
      | interface i =>
        cases ht : schema.types_for i with
        | none => simp [resolve_object_types, hg, ht] at h
        | some objs => simp [resolve_object_types, hg, ht] at h
      | union u tys =>
        simp only [resolve_object_types, hg] at h
        obtain ⟨ty, hty, hres⟩ := resolveUnion_fail _ tys ∅ _ h (by simp)
        exact resolve_abstract_err schema fuel ty m hres
      | object n => simp [resolve_object_types, hg] at h
      | scalar n => simp [resolve_object_types, hg] at h
      | enum n => simp [resolve_object_types, hg] at h
      | inputObject n => simp [resolve_object_types, hg] at h

/-- A resolution failure with a named-type error names a type that the
schema defines as a scalar, an enum, or an input object. -/
theorem resolve_named_err (schema : Schema) :
    ∀ (fuel : Nat) (name m : String),
      resolve_object_types fuel schema name = .err (.namedTypeError m) →
      ∃ td, schema.get_named_type m = some td ∧
        ((∃ n2, td = .scalar n2) ∨ (∃ n2, td = .enum n2) ∨
          (∃ n2, td = .inputObject n2))
  | 0, name, m => by
    intro h
    simp [resolve_object_types] at h
  | fuel + 1, name, m => by
    intro h
    cases hg : schema.get_named_type name with
    | none => simp [resolve_object_types, hg] at h
    | some td =>
      cases td with
      | interface i =>
        cases ht : schema.types_for i with
        | none => simp [resolve_object_types, hg, ht] at h
        | some objs => simp [resolve_object_types, hg, ht] at h
      | union u tys =>
        simp only [resolve_object_types, hg] at h
        obtain ⟨ty, hty, hres⟩ := resolveUnion_fail _ tys ∅ _ h (by simp)
        exact resolve_named_err schema fuel ty m hres
      | object n => simp [resolve_object_types, hg] at h
      | scalar n =>
        simp only [resolve_object_types, hg] at h
        injection h with h
        injection h with h
        exact ⟨.scalar n, h ▸ hg, Or.inl ⟨n, rfl⟩⟩
      | enum n =>
        simp only [resolve_object_types, hg] at h
        injection h with h
        injection h with h
        exact ⟨.enum n, h ▸ hg, Or.inr (Or.inl ⟨n, rfl⟩)⟩
      | inputObject n =>
        simp only [resolve_object_types, hg] at h
        injection h with h
        injection h with h
        exact ⟨.inputObject n, h ▸ hg, Or.inr (Or.inr ⟨n, rfl⟩)⟩

/-- Counterexample to C7: resolving the union BadUnion fails with an
abstract-type error although BadUnion itself is present in the schema,
because a constituent of the union is absent. -/
theorem claim7_counterexample :
    resolve_object_types 2 exSchema "BadUnion" =
      .err (.abstractTypeError "Missing") ∧
    exSchema.get_named_type "BadUnion" =
      some (.union "BadUnion" ["Missing"]) := by
  exact ⟨by decide, by decide⟩

/-- C7 amended: an unknown name fails directly with an abstract-type
error and a scalar, enum, or input-object name fails directly with a
named-type error; conversely an abstract-type error always names a type
absent from the schema and a named-type error always names a scalar,
enum, or input-object type, where the named type may be a transitively
reached union constituent rather than the given name itself; in every
error case no set is returned and from_name and convert propagate the
failure unchanged. -/
theorem claim7_errors (fuel : Nat) (schema : Schema) (name : String) :
    (schema.get_named_type name = none →
      resolve_object_types (fuel + 1) schema name =
        .err (.abstractTypeError name)) ∧
    (∀ n2, schema.get_named_type name = some (.scalar n2) →
      resolve_object_types (fuel + 1) schema name = .err (.namedTypeError name)) ∧
    (∀ n2, schema.get_named_type name = some (.enum n2) →
      resolve_object_types (fuel + 1) schema name = .err (.namedTypeError name)) ∧
    (∀ n2, schema.get_named_type name = some (.inputObject n2) →
      resolve_object_types (fuel + 1) schema name = .err (.namedTypeError name)) ∧
    (∀ m, resolve_object_types fuel schema name = .err (.abstractTypeError m) →
      schema.get_named_type m = none) ∧
    (∀ m, resolve_object_types fuel schema name = .err (.namedTypeError m) →
      ∃ td, schema.get_named_type m = some td ∧
        ((∃ n2, td = .scalar n2) ∨ (∃ n2, td = .enum n2) ∨
          (∃ n2, td = .inputObject n2))) ∧
    (∀ e, resolve_object_types fuel schema name = .err e →
      ObjectTypeSet.from_name fuel schema name = .err e ∧
      ObjectTypeSet.convert fuel schema (some (.on name)) = .err e) := by
  refine ⟨?_, ?_, ?_, ?_, ?_, ?_, ?_⟩
  · intro hg
    simp [resolve_object_types, hg]
  · intro n2 hg
    simp [resolve_object_types, hg]
  · intro n2 hg
    simp [resolve_object_types, hg]
  · intro n2 hg
    simp [resolve_object_types, hg]
  · exact resolve_abstract_err schema fuel name
  · exact resolve_named_err schema fuel name
  · intro e h
    constructor
    · rw [ObjectTypeSet.from_name, h]
    · rw [ObjectTypeSet.convert, ObjectTypeSet.from_name, h]

/-- Witness for the amended C7 at concrete inputs: an unknown name and
a scalar name fail as described and from_name propagates. -/
theorem claim7_witness :
    resolve_object_types 2 exSchema "Nope" = .err (.abstractTypeError "Nope") ∧
    resolve_object_types 2 exSchema "ID" = .err (.namedTypeError "ID") ∧
    ObjectTypeSet.from_name 2 exSchema "BadUnion" =
      .err (.abstractTypeError "Missing") := by
  have h1 := claim7_errors 1 exSchema "Nope"
  have h2 := claim7_errors 1 exSchema "ID"
  have h3 := claim7_errors 2 exSchema "BadUnion"
  exact ⟨h1.1 (by decide), h2.2.1 "ID" (by decide),
    (h3.2.2.2.2.2.2 _ (by decide)).1⟩

/-- Every interface type defined in the schema document has an entry in
the precomputed implementors table. -/
def interfaces_covered (schema : Schema) : Prop :=
  ∀ i, (TypeDefinition.interface i) ∈ schema.document →
    (schema.types_for i).isSome

/-- C10: when the looked-up name is an interface the implementors table
is indexed directly, so a missing entry panics instead of returning the
abstract-type error result; under the precondition that every interface
of the document has a table entry, resolve_object_types never panics. -/
theorem claim10_interface_panic (schema : Schema) :
    (∀ fuel name i, schema.get_named_type name = some (.interface i) →
      schema.types_for i = none →
      resolve_object_types (fuel + 1) schema name = .panicked) ∧
    (interfaces_covered schema →
      ∀ fuel name, resolve_object_types fuel schema name ≠ .panicked) := by
  constructor
  · intro fuel name i hg ht
    simp [resolve_object_types, hg, ht]
  · intro hcov fuel
    induction fuel with
    | zero =>
      intro name h
      simp [resolve_object_types] at h
    | succ fuel ih =>
      intro name h
      cases hg : schema.get_named_type name with
      | none => simp [resolve_object_types, hg] at h
      | some td =>
        cases td with
        | interface i =>
          cases ht : schema.types_for i with
          | none =>
            have := hcov i (get_named_type_mem hg)
            rw [ht] at this
            simp at this
          | some objs => simp [resolve_object_types, hg, ht] at h
        | union u tys =>
          simp only [resolve_object_types, hg] at h
          obtain ⟨ty, hty, hres⟩ := resolveUnion_fail _ tys ∅ _ h (by simp)
          exact ih ty hres
        | object n => simp [resolve_object_types, hg] at h
        | scalar n => simp [resolve_object_types, hg] at h
        | enum n => simp [resolve_object_types, hg] at h
        | inputObject n => simp [resolve_object_types, hg] at h

/-- Schema whose interfaces all have implementors-table entries. -/
def covSchema : Schema :=
  { document := [.interface "Node", .object "Cat"],
    types_for_interface := [("Node", ["Cat"])] }

/-- Witness for C10: resolving the interface Orphan, which has no table
entry, panics; on a schema whose interfaces are all covered by the
table, a concrete resolution does not panic. -/
theorem claim10_witness :
    resolve_object_types 3 exSchema "Orphan" = .panicked ∧
    resolve_object_types 3 covSchema "Node" ≠ .panicked := by
  constructor
  · exact (claim10_interface_panic exSchema).1 2 "Orphan" "Orphan" (by decide) (by decide)
  · refine (claim10_interface_panic covSchema).2 ?_ 3 "Node"
    intro i hi
    rcases List.mem_cons.mp hi with h | hi2
    · injection h with h
      subst h
      decide
    · rcases List.mem_cons.mp hi2 with h | h
      · exact absurd h (by simp)
      · simp at h

/-- setBucket never changes the list of bucket names. -/
theorem setBucket_names :
    ∀ (items : List (String × List Field)) (name : String) (fs : List Field),
      (setBucket items name fs).map Prod.fst = items.map Prod.fst
  | [], _, _ => rfl
  | (n, old) :: rest, name, fs => by
    rw [setBucket]
    by_cases h : n = name
    · rw [if_pos h]
      simp
    · rw [if_neg h]
      simp only [List.map_cons]
      rw [setBucket_names rest name fs]

/-- pushItems never changes the list of bucket names. -/
theorem pushItems_names :
    ∀ (items : List (String × List Field)) (f : Field)
      (items2 : List (String × List Field)),
      pushItems items f = some items2 → items2.map Prod.fst = items.map Prod.fst
  | [], f, items2 => by
    intro h
    rw [pushItems] at h
    injection h with h
    rw [← h]
  | (n, fields) :: rest, f, items2 => by
    intro h
    cases hm : SelectionSet.merge_field fields f with
    | none => simp [pushItems, hm] at h
    | some fields2 =>
      simp only [pushItems, hm] at h
      cases hp : pushItems rest f with
      | none => rw [hp] at h; simp at h
      | some rest2 =>
        rw [hp] at h
        simp only [Option.map] at h
        injection h with h
        rw [← h]
        simp only [List.map_cons]
        rw [pushItems_names rest f rest2 hp]

/-- mergeItems never changes the list of bucket names of self. -/
theorem mergeItems_names :
    ∀ (otherItems selfItems : List (String × List Field)) (ds : List Directive)
      (items2 : List (String × List Field)),
      mergeItems selfItems ds otherItems = some items2 →
      items2.map Prod.fst = selfItems.map Prod.fst
  | [], selfItems, ds, items2 => by
    intro h
    rw [mergeItems] at h
    injection h with h
    rw [← h]
  | (otherName, otherFields) :: rest, selfItems, ds, items2 => by
    intro h
    cases hf : findBucket selfItems otherName with
    | none => simp [mergeItems, hf] at h
    | some bucket =>
      cases hm : mergeFields bucket ds otherFields with
      | none => simp [mergeItems, hf, hm] at h
      | some newBucket =>
        simp only [mergeItems, hf, hm] at h
        have := mergeItems_names rest (setBucket selfItems otherName newBucket) ds items2 h
        rw [this, setBucket_names]

/-- C9: the ordered list of type names fixed by new or empty_from is
unchanged by push, push_fields and merge whenever they return. -/
theorem claim9_frame :
    (∀ types, (SelectionSet.new types).items.map Prod.fst = types) ∧
    (∀ other : SelectionSet,
      (SelectionSet.empty_from other).items.map Prod.fst =
        other.items.map Prod.fst) ∧
    (∀ (s : SelectionSet) (f : Field) (s2 : SelectionSet), s.push f = some s2 →
      s2.items.map Prod.fst = s.items.map Prod.fst) ∧
    (∀ (s : SelectionSet) (fs : List Field) (s2 : SelectionSet),
      s.push_fields fs = some s2 →
      s2.items.map Prod.fst = s.items.map Prod.fst) ∧
    (∀ (s other : SelectionSet) (ds : List Directive) (s2 : SelectionSet),
      s.merge other ds = some s2 →
      s2.items.map Prod.fst = s.items.map Prod.fst) := by
  have hpush : ∀ (s : SelectionSet) (f : Field) (s2 : SelectionSet),
      s.push f = some s2 → s2.items.map Prod.fst = s.items.map Prod.fst := by
    intro s f s2 h
    cases s with
    | mk items =>
      cases hp : pushItems items f with
      | none => simp [SelectionSet.push, hp] at h
      | some items2 =>
        simp only [SelectionSet.push, hp, Option.map] at h
        injection h with h
        rw [← h]
        exact pushItems_names items f items2 hp
  refine ⟨?_, ?_, hpush, ?_, ?_⟩
  · intro types
    simp only [SelectionSet.new, SelectionSet.items, List.map_map]
    have hid : (Prod.fst ∘ fun name : String => (name, ([] : List Field))) = id := rfl
    rw [hid, List.map_id]
  · intro other
    simp [SelectionSet.empty_from, SelectionSet.items]
  · intro s fs
    induction fs generalizing s with
    | nil =>
      intro s2 h
      rw [SelectionSet.push_fields] at h
      injection h with h
      rw [← h]
    | cons f fs ih =>
      intro s2 h
      cases hp : s.push f with
      | none => simp [SelectionSet.push_fields, hp] at h
      | some s3 =>
        simp only [SelectionSet.push_fields, hp] at h
        rw [ih s3 s2 h, hpush s f s3 hp]
  · intro s other ds s2 h
    cases s with
    | mk selfItems =>
      cases other with
      | mk otherItems =>
        cases hm : mergeItems selfItems ds otherItems with
        | none => simp [SelectionSet.merge, hm] at h
        | some items2 =>
          simp only [SelectionSet.merge, hm, Option.map] at h
          injection h with h
          rw [← h]
          exact mergeItems_names otherItems selfItems ds items2 hm

/-- Concrete leaf field with response key name. -/
def leafField (name : String) : Field := .mk ⟨1, 1⟩ none name [] [] (.mk [])

/-- Witness for C9: pushing a field and self-merging keep the bucket
name list of a concrete selection set. -/
theorem claim9_witness :
    (SelectionSet.new ["Cat", "Dog"]).items.map Prod.fst = ["Cat", "Dog"] ∧
    ∀ s2, (SelectionSet.new ["Cat", "Dog"]).push (leafField "name") = some s2 →
      s2.items.map Prod.fst =
        (SelectionSet.new ["Cat", "Dog"]).items.map Prod.fst := by
  exact ⟨claim9_frame.1 ["Cat", "Dog"],
    fun s2 h => claim9_frame.2.2.1 _ _ s2 h⟩

/-- When no existing field shares the response key, merge_field appends
the new field at the end of the bucket. -/
theorem merge_field_not_found :
    ∀ (fields : List Field) (nf : Field),
      (∀ g ∈ fields, g.response_key ≠ nf.response_key) →
      SelectionSet.merge_field fields nf = some (fields ++ [nf])
  | [], nf => by
    intro h
    simp [SelectionSet.merge_field]
  | f :: fs, nf => by
    intro h
    simp only [SelectionSet.merge_field]
    rw [if_neg (h f (List.mem_cons_self _ _))]
    rw [merge_field_not_found fs nf (fun g hg => h g (List.mem_cons_of_mem _ hg))]
    rfl

/-- When the first field sharing the response key is f, merge_field
recursively merges only the nested selection sets into f, keeping the
name, alias, arguments and directives of f and dropping those of the
incoming field. -/
theorem merge_field_found :
    ∀ (pre : List Field) (f : Field) (post : List Field) (nf : Field),
      f.response_key = nf.response_key →
      (∀ g ∈ pre, g.response_key ≠ nf.response_key) →
      SelectionSet.merge_field (pre ++ f :: post) nf =
        (SelectionSet.merge f.selection_set nf.selection_set []).map
          (fun ss2 => pre ++ f.with_selection_set ss2 :: post)
  | [], f, post, nf => by
    intro hk hpre
    simp only [List.nil_append, SelectionSet.merge_field]
    rw [if_pos hk]
  | g :: pre, f, post, nf => by
    intro hk hpre
    simp only [List.cons_append, SelectionSet.merge_field]
    rw [if_neg (hpre g (List.mem_cons_self _ _))]
    rw [merge_field_found pre f post nf hk
      (fun x hx => hpre x (List.mem_cons_of_mem _ hx))]
    cases SelectionSet.merge f.selection_set nf.selection_set [] <;> rfl

/-- C4: in SelectionSet.merge an incoming field receives the supplied
directives placed ahead of its own directives and is appended when its
response key is new in the bucket; a collision merges only the nested
selection sets into the existing field, keeping the existing name,
alias, arguments and directives and discarding the top-level directives
and arguments of the incoming field. -/
theorem claim4_merge (f nf : Field) (ds : List Directive) (ss : SelectionSet)
    (fields pre post : List Field) (items : List (String × List Field))
    (n : String) (bucket : List Field) :
    ((f.prepend_directives ds).directives = ds ++ f.directives ∧
      (f.prepend_directives ds).name = f.name ∧
      (f.prepend_directives ds).alias = f.alias ∧
      (f.prepend_directives ds).arguments = f.arguments ∧
      (f.prepend_directives ds).selection_set = f.selection_set) ∧
    ((f.with_selection_set ss).name = f.name ∧
      (f.with_selection_set ss).alias = f.alias ∧
      (f.with_selection_set ss).arguments = f.arguments ∧
      (f.with_selection_set ss).directives = f.directives ∧
      (f.with_selection_set ss).selection_set = ss) ∧
    ((∀ g ∈ fields, g.response_key ≠ nf.response_key) →
      SelectionSet.merge_field fields nf = some (fields ++ [nf])) ∧
    (f.response_key = nf.response_key →
      (∀ g ∈ pre, g.response_key ≠ nf.response_key) →
      SelectionSet.merge_field (pre ++ f :: post) nf =
        (SelectionSet.merge f.selection_set nf.selection_set []).map
          (fun ss2 => pre ++ f.with_selection_set ss2 :: post)) ∧
    (findBucket items n = some bucket →
      SelectionSet.merge (.mk items) (.mk [(n, [nf])]) ds =
        (SelectionSet.merge_field bucket (nf.prepend_directives ds)).map
          (fun b => SelectionSet.mk (setBucket items n b))) := by
  refine ⟨?_, ?_, merge_field_not_found fields nf,
    merge_field_found pre f post nf, ?_⟩
  · cases f
    simp [Field.prepend_directives, Field.directives, Field.name, Field.alias,
      Field.arguments, Field.selection_set]
  · cases f
    simp [Field.with_selection_set, Field.directives, Field.name, Field.alias,
      Field.arguments, Field.selection_set]
  · intro hfind
    cases hmf : SelectionSet.merge_field bucket (nf.prepend_directives ds) with
    | none =>
      simp [SelectionSet.merge, mergeItems, mergeFields, hfind, hmf]
    | some b =>
      simp [SelectionSet.merge, mergeItems, mergeFields, hfind, hmf]

/-- Aliased leaf field: response key is the alias. -/
def aliasedField (key name : String) : Field := .mk ⟨2, 3⟩ (some key) name [] [] (.mk [])

/-- Witness for C4: a fresh response key is appended and a colliding
response key keeps the existing field while nested sets merge. -/
theorem claim4_witness :
    SelectionSet.merge_field [leafField "a"] (leafField "b") =
      some ([leafField "a"] ++ [leafField "b"]) ∧
    SelectionSet.merge_field ([] ++ leafField "a" :: []) (aliasedField "a" "other") =
      (SelectionSet.merge (leafField "a").selection_set
          (aliasedField "a" "other").selection_set []).map
        (fun ss2 => [] ++ (leafField "a").with_selection_set ss2 :: []) := by
  have h1 := claim4_merge (leafField "a") (leafField "b") [] (.mk [])
    [leafField "a"] [] [] [] "T" []
  have h2 := claim4_merge (leafField "a") (aliasedField "a" "other") [] (.mk [])
    [] [] [] [] "T" []
  exact ⟨h1.2.2.1 (by decide), h2.2.2.2.1 (by decide) (by decide)⟩

mutual
/-- Well-formedness of a selection set: in every bucket, at every
nesting depth, no two fields share a response key. -/
def SelectionSet.wf : SelectionSet → Bool
  | .mk items => itemsWf items
termination_by structural a => a

/-- Well-formedness of an item list. -/
def itemsWf : List (String × List Field) → Bool
  | [] => true
  | (_, fs) :: rest => bucketWf fs && itemsWf rest
termination_by structural a => a

/-- Well-formedness of one bucket: fields pairwise distinct by response
key and each field well-formed. -/
def bucketWf : List Field → Bool
  | [] => true
  | f :: fs =>
    Field.wf f && fs.all (fun g => g.response_key != f.response_key) && bucketWf fs
termination_by structural a => a

/-- Well-formedness of a field: its nested selection set is. -/
def Field.wf : Field → Bool
  | .mk _ _ _ _ _ ss => SelectionSet.wf ss
termination_by structural a => a
end

/-- The well-formedness of a field reads only its selection set. -/
theorem Field.wf_eq (f : Field) : Field.wf f = SelectionSet.wf f.selection_set := by
  cases f
  rfl

/-- Prepending directives does not change well-formedness. -/
theorem prepend_wf (f : Field) (ds : List Directive) :
    Field.wf (f.prepend_directives ds) = Field.wf f := by
  cases f
  rfl

/-- Prepending directives does not change the response key. -/
theorem prepend_key (f : Field) (ds : List Directive) :
    (f.prepend_directives ds).response_key = f.response_key := by
  cases f
  rfl

/-- Prepending no directives is the identity. -/
theorem prepend_nil (f : Field) : f.prepend_directives [] = f := by
  cases f
  simp [Field.prepend_directives]

/-- Replacing the selection set does not change the response key. -/
theorem with_ss_key (f : Field) (ss : SelectionSet) :
    (f.with_selection_set ss).response_key = f.response_key := by
  cases f
  rfl

/-- The well-formedness of a field with replaced selection set. -/
theorem with_ss_wf (f : Field) (ss : SelectionSet) :
    Field.wf (f.with_selection_set ss) = SelectionSet.wf ss := by
  cases f
  rfl

/-- Replacing the selection set by its own is the identity. -/
theorem with_ss_self (f : Field) :
    f.with_selection_set f.selection_set = f := by
  cases f
  rfl

/-- Boolean key-freshness test as a proposition. -/
theorem keys_all_iff (fs : List Field) (k : String) :
    fs.all (fun g => g.response_key != k) = true ↔
      ∀ g ∈ fs, g.response_key ≠ k := by
  simp [List.all_eq_true]

/-- Splitting of bucket well-formedness at a cons. -/
theorem bucketWf_cons (f : Field) (fs : List Field) :
    bucketWf (f :: fs) = true ↔
      Field.wf f = true ∧ (∀ g ∈ fs, g.response_key ≠ f.response_key) ∧
        bucketWf fs = true := by
  rw [bucketWf]
  rw [Bool.and_eq_true, Bool.and_eq_true, keys_all_iff]
  tauto

/-- Each field of a well-formed bucket is well-formed. -/
theorem bucketWf_mem {fs : List Field} (h : bucketWf fs = true) :
    ∀ f ∈ fs, Field.wf f = true := by
  induction fs with
  | nil => intro f hf; simp at hf
  | cons g gs ih =>
    intro f hf
    rw [bucketWf_cons] at h
    rcases List.mem_cons.mp hf with rfl | hf2
    · exact h.1
    · exact ih h.2.2 f hf2

/-- Each bucket of a well-formed item list is well-formed. -/
theorem itemsWf_mem {items : List (String × List Field)}
    (h : itemsWf items = true) : ∀ p ∈ items, bucketWf p.2 = true := by
  induction items with
  | nil => intro p hp; simp at hp
  | cons q rest ih =>
    intro p hp
    obtain ⟨n, fs⟩ := q
    rw [itemsWf, Bool.and_eq_true] at h
    rcases List.mem_cons.mp hp with rfl | hp2
    · exact h.1
    · exact ih h.2 p hp2

/-- The bucket that findBucket returns from a well-formed item list is
well-formed. -/
theorem findBucket_wf {items : List (String × List Field)} {n : String}
    {fs : List Field} (hf : findBucket items n = some fs)
    (h : itemsWf items = true) : bucketWf fs = true := by
  induction items with
  | nil => simp [findBucket] at hf
  | cons q rest ih =>
    obtain ⟨m, gs⟩ := q
    rw [itemsWf, Bool.and_eq_true] at h
    rw [findBucket] at hf
    by_cases hm : m = n
    · rw [if_pos hm] at hf
      injection hf with hf
      rw [← hf]
      exact h.1
    · rw [if_neg hm] at hf
      exact ih hf h.2

/-- Replacing one bucket by a well-formed one keeps the item list
well-formed. -/
theorem setBucket_wf {items : List (String × List Field)} {n : String}
    {newFs : List Field} (h : itemsWf items = true)
    (hb : bucketWf newFs = true) : itemsWf (setBucket items n newFs) = true := by
  induction items with
  | nil =>
    rw [setBucket]
    exact h
  | cons q rest ih =>
    obtain ⟨m, gs⟩ := q
    rw [itemsWf, Bool.and_eq_true] at h
    rw [setBucket]
    by_cases hm : m = n
    · rw [if_pos hm, itemsWf, Bool.and_eq_true]
      exact ⟨hb, h.2⟩
    · rw [if_neg hm, itemsWf, Bool.and_eq_true]
      exact ⟨h.1, ih h.2⟩

/-- Every response key present in the result of merge_field was already
present in the bucket or is the key of the incoming field. -/
theorem merge_field_keys :
    ∀ (fields : List Field) (nf : Field) (res : List Field),
      SelectionSet.merge_field fields nf = some res →
      ∀ g ∈ res, g.response_key ∈ fields.map Field.response_key ∨
        g.response_key = nf.response_key
  | [], nf, res => by
    intro h g hg
    simp only [SelectionSet.merge_field] at h
    injection h with h
    rw [← h] at hg
    rcases List.mem_cons.mp hg with rfl | hg2
    · right; rfl
    · simp at hg2
  | f :: fs, nf, res => by
    intro h g hg
    by_cases hk : f.response_key = nf.response_key
    · simp only [SelectionSet.merge_field] at h
      rw [if_pos hk] at h
      cases hm : SelectionSet.merge f.selection_set nf.selection_set [] with
      | none => rw [hm] at h; simp at h
      | some ss2 =>
        rw [hm] at h
        simp only [Option.map] at h
        injection h with h
        rw [← h] at hg
        rcases List.mem_cons.mp hg with rfl | hgf
        · left
          rw [with_ss_key]
          exact List.mem_map_of_mem _ (List.mem_cons_self _ _)
        · left
          exact List.mem_map_of_mem _ (List.mem_cons_of_mem _ hgf)
    · simp only [SelectionSet.merge_field] at h
      rw [if_neg hk] at h
      cases hm : SelectionSet.merge_field fs nf with
      | none => rw [hm] at h; simp at h
      | some res2 =>
        rw [hm] at h
        simp only [Option.map] at h
        injection h with h
        rw [← h] at hg
        rcases List.mem_cons.mp hg with rfl | hg2
        · left
          exact List.mem_map_of_mem _ (List.mem_cons_self _ _)
        · rcases merge_field_keys fs nf res2 hm g hg2 with hin | heq
          · left
            rw [List.map_cons]
            exact List.mem_cons_of_mem _ hin
          · right
            exact heq

mutual
/-- A successful merge of well-formed selection sets is well-formed. -/
theorem merge_wf : ∀ (s other : SelectionSet) (ds : List Directive)
    (res : SelectionSet), SelectionSet.merge s other ds = some res →
    SelectionSet.wf s = true → SelectionSet.wf other = true →
    SelectionSet.wf res = true
  | .mk selfItems, .mk otherItems, ds, res => by
    intro h h1 h2
    cases hm : mergeItems selfItems ds otherItems with
    | none => simp [SelectionSet.merge, hm] at h
    | some items2 =>
      simp only [SelectionSet.merge, hm, Option.map] at h
      injection h with h
      rw [← h, SelectionSet.wf]
      rw [SelectionSet.wf] at h1 h2
      exact mergeItems_wf otherItems selfItems ds items2 hm h1
        (fun p hp f hf => bucketWf_mem (itemsWf_mem h2 p hp) f hf)
termination_by s other ds res => (ssSize other, 0)
decreasing_by
  all_goals simp_wf
  all_goals
    first
    | exact Prod.Lex.left _ _ (by
        simp only [ssSize, itemsSize, bucketSize, fieldSize_eq, selection_set_prepend]
        omega)
    | exact Prod.Lex.right _ (by
        try simp only [List.length_cons]
        omega)

/-- mergeItems keeps the item list well-formed when every incoming
field is well-formed. -/
theorem mergeItems_wf : ∀ (otherItems selfItems : List (String × List Field))
    (ds : List Directive) (res : List (String × List Field)),
    mergeItems selfItems ds otherItems = some res →
    itemsWf selfItems = true →
    (∀ p ∈ otherItems, ∀ f ∈ p.2, Field.wf f = true) →
    itemsWf res = true
  | [], selfItems, ds, res => by
    intro h h1 h2
    rw [mergeItems] at h
    injection h with h
    rw [← h]
    exact h1
  | (otherName, otherFields) :: rest, selfItems, ds, res => by
    intro h h1 h2
    cases hf : findBucket selfItems otherName with
    | none => simp [mergeItems, hf] at h
    | some bucket =>
      cases hmf : mergeFields bucket ds otherFields with
      | none => simp [mergeItems, hf, hmf] at h
      | some newBucket =>
        simp only [mergeItems, hf, hmf] at h
        have hb : bucketWf newBucket = true :=
          mergeFields_wf otherFields bucket ds newBucket hmf
            (findBucket_wf hf h1)
            (fun f hfm => h2 (otherName, otherFields) (List.mem_cons_self _ _) f hfm)
        exact mergeItems_wf rest (setBucket selfItems otherName newBucket) ds res h
          (setBucket_wf h1 hb)
          (fun p hp f hfm => h2 p (List.mem_cons_of_mem _ hp) f hfm)
termination_by otherItems selfItems ds res => (itemsSize otherItems, 0)
decreasing_by
  all_goals simp_wf
  all_goals
    first
    | exact Prod.Lex.left _ _ (by
        simp only [ssSize, itemsSize, bucketSize, fieldSize_eq, selection_set_prepend]
        omega)
    | exact Prod.Lex.right _ (by
        try simp only [List.length_cons]
        omega)

/-- mergeFields keeps the bucket well-formed when every incoming field
is well-formed. -/
theorem mergeFields_wf : ∀ (fs acc : List Field) (ds : List Directive)
    (res : List Field), mergeFields acc ds fs = some res →
    bucketWf acc = true → (∀ f ∈ fs, Field.wf f = true) →
    bucketWf res = true
  | [], acc, ds, res => by
    intro h h1 h2
    rw [mergeFields] at h
    injection h with h
    rw [← h]
    exact h1
  | f :: fs, acc, ds, res => by
    intro h h1 h2
    cases hmf : SelectionSet.merge_field acc (f.prepend_directives ds) with
    | none => simp [mergeFields, hmf] at h
    | some acc2 =>
      simp only [mergeFields, hmf] at h
      have hw : Field.wf (f.prepend_directives ds) = true := by
        rw [prepend_wf]
        exact h2 f (List.mem_cons_self _ _)
      have hb : bucketWf acc2 = true :=
        merge_field_wf acc (f.prepend_directives ds) acc2 hmf h1 hw
      exact mergeFields_wf fs acc2 ds res h hb
        (fun g hg => h2 g (List.mem_cons_of_mem _ hg))
termination_by fs acc ds res => (bucketSize fs, 0)
decreasing_by
  all_goals simp_wf
  all_goals
    first
    | exact Prod.Lex.left _ _ (by
        simp only [ssSize, itemsSize, bucketSize, fieldSize_eq, selection_set_prepend]
        omega)
    | exact Prod.Lex.right _ (by
        try simp only [List.length_cons]
        omega)

/-- merge_field keeps a bucket well-formed when the incoming field is
well-formed. -/
theorem merge_field_wf : ∀ (fields : List Field) (nf : Field)
    (res : List Field), SelectionSet.merge_field fields nf = some res →
    bucketWf fields = true → Field.wf nf = true → bucketWf res = true
  | [], nf, res => by
    intro h h1 h2
    simp only [SelectionSet.merge_field] at h
    injection h with h
    rw [← h, bucketWf_cons]
    exact ⟨h2, by simp, rfl⟩
  | f :: fs, nf, res => by
    intro h h1 h2
    rw [bucketWf_cons] at h1
    by_cases hk : f.response_key = nf.response_key
    · simp only [SelectionSet.merge_field] at h
      rw [if_pos hk] at h
      cases hm : SelectionSet.merge f.selection_set nf.selection_set [] with
      | none => rw [hm] at h; simp at h
      | some ss2 =>
        rw [hm] at h
        simp only [Option.map] at h
        injection h with h
        rw [← h, bucketWf_cons]
        refine ⟨?_, ?_, h1.2.2⟩
        · rw [with_ss_wf]
          exact merge_wf f.selection_set nf.selection_set [] ss2 hm
            (by rw [← Field.wf_eq]; exact h1.1)
            (by rw [← Field.wf_eq]; exact h2)
        · intro g hg
          rw [with_ss_key]
          exact h1.2.1 g hg
    · simp only [SelectionSet.merge_field] at h
      rw [if_neg hk] at h
      cases hm : SelectionSet.merge_field fs nf with
      | none => rw [hm] at h; simp at h
      | some res2 =>
        rw [hm] at h
        simp only [Option.map] at h
        injection h with h
        rw [← h, bucketWf_cons]
        refine ⟨h1.1, ?_, merge_field_wf fs nf res2 hm h1.2.2 h2⟩
        intro g hg
        rcases merge_field_keys fs nf res2 hm g hg with hin | heq
        · rcases List.mem_map.mp hin with ⟨g0, hg0, hkey⟩
          rw [← hkey]
          exact h1.2.1 g0 hg0
        · rw [heq]
          intro hc
          exact hk hc.symm
termination_by fields nf res => (ssSize nf.selection_set, fields.length)
decreasing_by
  all_goals simp_wf
  all_goals
    first
    | exact Prod.Lex.left _ _ (by
        simp only [ssSize, itemsSize, bucketSize, fieldSize_eq, selection_set_prepend]
        omega)
    | exact Prod.Lex.right _ (by
        try simp only [List.length_cons]
        omega)
end

/-- pushItems keeps the item list well-formed. -/
theorem pushItems_wf :
    ∀ (items : List (String × List Field)) (f : Field)
      (items2 : List (String × List Field)),
      pushItems items f = some items2 → itemsWf items = true →
      Field.wf f = true → itemsWf items2 = true
  | [], f, items2 => by
    intro h h1 h2
    rw [pushItems] at h
    injection h with h
    rw [← h]
    exact h1
  | (n, fields) :: rest, f, items2 => by
    intro h h1 h2
    rw [itemsWf, Bool.and_eq_true] at h1
    cases hm : SelectionSet.merge_field fields f with
    | none => simp [pushItems, hm] at h
    | some fields2 =>
      simp only [pushItems, hm] at h
      cases hp : pushItems rest f with
      | none => rw [hp] at h; simp at h
      | some rest2 =>
        rw [hp] at h
        simp only [Option.map] at h
        injection h with h
        rw [← h, itemsWf, Bool.and_eq_true]
        exact ⟨merge_field_wf fields f fields2 hm h1.1 h2,
          pushItems_wf rest f rest2 hp h1.2 h2⟩

/-- push keeps a selection set well-formed. -/
theorem push_wf {s : SelectionSet} {f : Field} {s2 : SelectionSet}
    (h : s.push f = some s2) (h1 : SelectionSet.wf s = true)
    (h2 : Field.wf f = true) : SelectionSet.wf s2 = true := by
  cases s with
  | mk items =>
    cases hp : pushItems items f with
    | none => simp [SelectionSet.push, hp] at h
    | some items2 =>
      simp only [SelectionSet.push, hp, Option.map] at h
      injection h with h
      rw [← h, SelectionSet.wf]
      rw [SelectionSet.wf] at h1
      exact pushItems_wf items f items2 hp h1 h2

/-- push_fields keeps a selection set well-formed. -/
theorem push_fields_wf :
    ∀ (fs : List Field) (s s2 : SelectionSet),
      s.push_fields fs = some s2 → SelectionSet.wf s = true →
      (∀ f ∈ fs, Field.wf f = true) → SelectionSet.wf s2 = true
  | [], s, s2 => by
    intro h h1 h2
    rw [SelectionSet.push_fields] at h
    injection h with h
    rw [← h]
    exact h1
  | f :: fs, s, s2 => by
    intro h h1 h2
    cases hp : s.push f with
    | none => simp [SelectionSet.push_fields, hp] at h
    | some s3 =>
      simp only [SelectionSet.push_fields, hp] at h
      exact push_fields_wf fs s3 s2 h
        (push_wf hp h1 (h2 f (List.mem_cons_self _ _)))
        (fun g hg => h2 g (List.mem_cons_of_mem _ hg))

/-- A freshly constructed selection set is well-formed. -/
theorem new_wf (types : List String) :
    SelectionSet.wf (SelectionSet.new types) = true := by
  rw [SelectionSet.new, SelectionSet.wf]
  induction types with
  | nil => rfl
  | cons ty tys ih =>
    rw [List.map_cons, itemsWf]
    simp only [Bool.and_eq_true]
    exact ⟨rfl, ih⟩

/-- empty_from yields a well-formed selection set. -/
theorem empty_from_wf (other : SelectionSet) :
    SelectionSet.wf (SelectionSet.empty_from other) = true := by
  rw [SelectionSet.empty_from, SelectionSet.wf]
  induction other.items with
  | nil => rfl
  | cons p rest ih =>
    rw [List.map_cons, itemsWf]
    simp only [Bool.and_eq_true]
    exact ⟨rfl, ih⟩

/-- A bucket of a well-formed selection set has pairwise distinct
response keys. -/
theorem bucketWf_pairwise {fs : List Field} (h : bucketWf fs = true) :
    fs.Pairwise (fun a b => a.response_key ≠ b.response_key) := by
  induction fs with
  | nil => exact List.Pairwise.nil
  | cons f fs ih =>
    rw [bucketWf_cons] at h
    exact List.Pairwise.cons (fun g hg => (h.2.1 g hg ∘ Eq.symm)) (ih h.2.2)

/-- The selection sets reachable by construction and mutation through
the public operations: new, empty_from, push, push_fields and merge,
where every pushed or merged field is well-formed in its nested
selection sets. -/
inductive Built : SelectionSet → Prop where
  | new (types : List String) : Built (SelectionSet.new types)
  | empty_from (other : SelectionSet) : Built (SelectionSet.empty_from other)
  | push {s : SelectionSet} {f : Field} {s2 : SelectionSet} :
      Built s → Field.wf f = true → s.push f = some s2 → Built s2
  | push_fields {s : SelectionSet} {fs : List Field} {s2 : SelectionSet} :
      Built s → (∀ f ∈ fs, Field.wf f = true) → s.push_fields fs = some s2 →
      Built s2
  | merge {s other : SelectionSet} {ds : List Directive} {s2 : SelectionSet} :
      Built s → SelectionSet.wf other = true → s.merge other ds = some s2 →
      Built s2

/-- C5: any selection set built from new or empty_from by a sequence of
push, push_fields and merge operations whose incoming fields are
well-formed has no two fields with the same response key in any type
bucket. -/
theorem claim5_response_key_unique (s : SelectionSet) (h : Built s) :
    SelectionSet.wf s = true ∧
    ∀ p ∈ s.items, p.2.Pairwise (fun a b => a.response_key ≠ b.response_key) := by
  have hwf : SelectionSet.wf s = true := by
    induction h with
    | new types => exact new_wf types
    | empty_from other => exact empty_from_wf other
    | push hb hf hp ih => exact push_wf hp ih hf
    | push_fields hb hfs hp ih => exact push_fields_wf _ _ _ hp ih hfs
    | merge hb hother hm ih => exact merge_wf _ _ _ _ hm ih hother
  refine ⟨hwf, ?_⟩
  intro p hp
  cases s with
  | mk items =>
    rw [SelectionSet.wf] at hwf
    rw [SelectionSet.items] at hp
    exact bucketWf_pairwise (itemsWf_mem hwf p hp)

/-- Witness for C5: a concrete build by new and push produces a bucket
with distinct response keys. -/
theorem claim5_witness :
    SelectionSet.wf (.mk [("A", [leafField "x"])]) = true ∧
    ∀ p ∈ (SelectionSet.mk [("A", [leafField "x"])]).items,
      p.2.Pairwise (fun a b => a.response_key ≠ b.response_key) := by
  have hb : Built (.mk [("A", [leafField "x"])]) := by
    have h0 : Built (SelectionSet.new ["A"]) := Built.new ["A"]
    have hp : (SelectionSet.new ["A"]).push (leafField "x") =
        some (.mk [("A", [leafField "x"])]) := by
      simp [SelectionSet.new, SelectionSet.push, pushItems, SelectionSet.merge_field]
    exact Built.push h0 (by decide) hp
  exact claim5_response_key_unique _ hb

mutual
/-- No duplicate bucket type names at any nesting depth of a selection
set; this is the documented SelectionSet invariant that every type name
is unique within one set. -/
def SelectionSet.namesNodup : SelectionSet → Bool
  | .mk items => itemsNamesNodup items
termination_by structural a => a

/-- No duplicate bucket names in an item list, recursively. -/
def itemsNamesNodup : List (String × List Field) → Bool
  | [] => true
  | (n, fs) :: rest =>
    rest.all (fun p => p.1 != n) && bucketNamesNodup fs && itemsNamesNodup rest
termination_by structural a => a

/-- No duplicate bucket names inside any field of the bucket. -/
def bucketNamesNodup : List Field → Bool
  | [] => true
  | f :: fs => Field.namesNodup f && bucketNamesNodup fs
termination_by structural a => a

/-- No duplicate bucket names inside the nested selection set. -/
def Field.namesNodup : Field → Bool
  | .mk _ _ _ _ _ ss => SelectionSet.namesNodup ss
termination_by structural a => a
end

/-- Field.namesNodup reads only the nested selection set. -/
theorem Field.namesNodup_eq (f : Field) :
    Field.namesNodup f = SelectionSet.namesNodup f.selection_set := by
  cases f
  rfl

/-- Splitting of itemsNamesNodup at a cons. -/
theorem itemsNamesNodup_cons (n : String) (fs : List Field)
    (rest : List (String × List Field)) :
    itemsNamesNodup ((n, fs) :: rest) = true ↔
      (∀ p ∈ rest, p.1 ≠ n) ∧ bucketNamesNodup fs = true ∧
        itemsNamesNodup rest = true := by
  rw [itemsNamesNodup, Bool.and_eq_true, Bool.and_eq_true]
  simp [List.all_eq_true]
  tauto

/-- Each bucket of an item list without duplicate names has no
duplicate names inside. -/
theorem itemsNamesNodup_mem {items : List (String × List Field)}
    (h : itemsNamesNodup items = true) :
    ∀ p ∈ items, bucketNamesNodup p.2 = true := by
  induction items with
  | nil => intro p hp; simp at hp
  | cons q rest ih =>
    obtain ⟨n, fs⟩ := q
    rw [itemsNamesNodup_cons] at h
    intro p hp
    rcases List.mem_cons.mp hp with rfl | hp2
    · exact h.2.1
    · exact ih h.2.2 p hp2

/-- Each field of a bucket without duplicate names has none inside. -/
theorem bucketNamesNodup_mem {fs : List Field}
    (h : bucketNamesNodup fs = true) :
    ∀ f ∈ fs, Field.namesNodup f = true := by
  induction fs with
  | nil => intro f hf; simp at hf
  | cons g gs ih =>
    rw [bucketNamesNodup, Bool.and_eq_true] at h
    intro f hf
    rcases List.mem_cons.mp hf with rfl | hf2
    · exact h.1
    · exact ih h.2 f hf2

/-- In an item list without duplicate bucket names, findBucket on the
name of a member returns exactly the fields of that member. -/
theorem findBucket_self {items : List (String × List Field)}
    (h : itemsNamesNodup items = true) :
    ∀ p ∈ items, findBucket items p.1 = some p.2 := by
  induction items with
  | nil => intro p hp; simp at hp
  | cons q rest ih =>
    obtain ⟨n, fs⟩ := q
    rw [itemsNamesNodup_cons] at h
    intro p hp
    rcases List.mem_cons.mp hp with rfl | hp2
    · rw [findBucket, if_pos rfl]
    · rw [findBucket, if_neg ?_]
      · exact ih h.2.2 p hp2
      · intro hc
        exact h.1 p hp2 (hc ▸ rfl)

/-- Replacing a bucket by the exact fields findBucket returned is the
identity. -/
theorem setBucket_same :
    ∀ (items : List (String × List Field)) (n : String) (fs : List Field),
      findBucket items n = some fs → setBucket items n fs = items
  | [], n, fs => by
    intro h
    simp [findBucket] at h
  | (m, gs) :: rest, n, fs => by
    intro h
    rw [findBucket] at h
    rw [setBucket]
    by_cases hm : m = n
    · rw [if_pos hm] at h
      injection h with h
      rw [if_pos hm, h]
    · rw [if_neg hm] at h
      rw [if_neg hm, setBucket_same rest n fs h]

mutual
/-- Merging a well-formed selection set without duplicate bucket names
into itself with no directives is the identity. -/
theorem merge_self : ∀ s : SelectionSet, SelectionSet.wf s = true →
    SelectionSet.namesNodup s = true → s.merge s [] = some s
  | .mk items => by
    intro h1 h2
    rw [SelectionSet.wf] at h1
    rw [SelectionSet.namesNodup] at h2
    have hg : mergeItems items [] items = some items :=
      mergeItems_self items items (findBucket_self h2)
        (itemsWf_mem h1) (itemsNamesNodup_mem h2)
    simp only [SelectionSet.merge, hg, Option.map]
termination_by s => (ssSize s, 0)
decreasing_by
  all_goals simp_wf
  all_goals
    first
    | exact Prod.Lex.left _ _ (by
        simp only [ssSize, itemsSize, bucketSize, fieldSize_eq, selection_set_prepend]
        omega)
    | exact Prod.Lex.right _ (by
        try simp only [List.length_cons]
        omega)

/-- Folding a sublist of the buckets of items into items itself with no
directives changes nothing. -/
theorem mergeItems_self : ∀ (sub items : List (String × List Field)),
    (∀ p ∈ sub, findBucket items p.1 = some p.2) →
    (∀ p ∈ sub, bucketWf p.2 = true) →
    (∀ p ∈ sub, bucketNamesNodup p.2 = true) →
    mergeItems items [] sub = some items
  | [], items => by
    intro hfind hwf hnd
    rw [mergeItems]
  | (n, ofs) :: rest, items => by
    intro hfind hwf hnd
    have hf : findBucket items n = some ofs :=
      hfind (n, ofs) (List.mem_cons_self _ _)
    have hmf : mergeFields ofs [] ofs = some ofs :=
      mergeFields_self ofs ofs (fun f hf2 => hf2)
        (hwf (n, ofs) (List.mem_cons_self _ _))
        (hnd (n, ofs) (List.mem_cons_self _ _))
    simp only [mergeItems, hf, hmf]
    rw [setBucket_same items n ofs hf]
    exact mergeItems_self rest items
      (fun p hp => hfind p (List.mem_cons_of_mem _ hp))
      (fun p hp => hwf p (List.mem_cons_of_mem _ hp))
      (fun p hp => hnd p (List.mem_cons_of_mem _ hp))
termination_by sub items => (itemsSize sub, 0)
decreasing_by
  all_goals simp_wf
  all_goals
    first
    | exact Prod.Lex.left _ _ (by
        simp only [ssSize, itemsSize, bucketSize, fieldSize_eq, selection_set_prepend]
        omega)
    | exact Prod.Lex.right _ (by
        try simp only [List.length_cons]
        omega)

/-- Folding a sublist of the fields of a bucket into the bucket itself
with no directives changes nothing. -/
theorem mergeFields_self : ∀ (sub fields : List Field),
    (∀ f ∈ sub, f ∈ fields) → bucketWf fields = true →
    bucketNamesNodup fields = true → mergeFields fields [] sub = some fields
  | [], fields => by
    intro hsub hwf hnd
    rw [mergeFields]
  | f :: sub2, fields => by
    intro hsub hwf hnd
    have hmf : SelectionSet.merge_field fields f = some fields :=
      merge_field_self fields f (hsub f (List.mem_cons_self _ _)) hwf hnd
    simp only [mergeFields, prepend_nil, hmf]
    exact mergeFields_self sub2 fields
      (fun g hg => hsub g (List.mem_cons_of_mem _ hg)) hwf hnd
termination_by sub fields => (bucketSize sub, 0)
decreasing_by
  all_goals simp_wf
  all_goals
    first
    | exact Prod.Lex.left _ _ (by
        simp only [ssSize, itemsSize, bucketSize, fieldSize_eq, selection_set_prepend]
        omega)
    | exact Prod.Lex.right _ (by
        try simp only [List.length_cons]
        omega)

/-- Merging a field of a well-formed bucket into the bucket changes
nothing: the field collides with itself and the nested self-merge is
the identity. -/
theorem merge_field_self : ∀ (fields : List Field) (f : Field),
    f ∈ fields → bucketWf fields = true → bucketNamesNodup fields = true →
    SelectionSet.merge_field fields f = some fields
  | [], f => by
    intro hmem
    simp at hmem
  | g :: fs, f => by
    intro hmem hwf hnd
    rw [bucketWf_cons] at hwf
    rw [bucketNamesNodup, Bool.and_eq_true] at hnd
    by_cases hk : g.response_key = f.response_key
    · have hfg : f = g := by
        rcases List.mem_cons.mp hmem with rfl | hf2
        · rfl
        · exact absurd hk.symm (hwf.2.1 f hf2)
      rcases hfg with rfl
      have hself : SelectionSet.merge f.selection_set f.selection_set [] =
          some f.selection_set :=
        merge_self f.selection_set
          (by rw [← Field.wf_eq]; exact hwf.1)
          (by rw [← Field.namesNodup_eq]; exact hnd.1)
      simp only [SelectionSet.merge_field, eq_self_iff_true, if_true]
      rw [hself]
      simp only [Option.map]
      rw [with_ss_self]
    · have hf2 : f ∈ fs := by
        rcases List.mem_cons.mp hmem with rfl | hf2
        · exact absurd rfl hk
        · exact hf2
      simp only [SelectionSet.merge_field]
      rw [if_neg hk, merge_field_self fs f hf2 hwf.2.2 hnd.2]
      rfl
termination_by fields f => (ssSize f.selection_set, fields.length)
decreasing_by
  all_goals simp_wf
  all_goals
    first
    | exact Prod.Lex.left _ _ (by
        simp only [ssSize, itemsSize, bucketSize, fieldSize_eq, selection_set_prepend]
        omega)
    | exact Prod.Lex.right _ (by
        try simp only [List.length_cons]
        omega)
end

/-- C8: merging a selection set satisfying the documented invariants
(unique type names, unique response keys per bucket, recursively) into
an exact copy of itself with an empty directive list returns it
unchanged, so the field count of every type bucket is unchanged and no
field is duplicated at any depth. -/
theorem claim8_merge_idempotent (s : SelectionSet)
    (h1 : SelectionSet.wf s = true) (h2 : SelectionSet.namesNodup s = true) :
    s.merge s [] = some s ∧
    ∀ s2, s.merge s [] = some s2 →
      s2.items.map (fun p => (p.1, p.2.length)) =
        s.items.map (fun p => (p.1, p.2.length)) := by
  have hm := merge_self s h1 h2
  refine ⟨hm, ?_⟩
  intro s2 h
  rw [hm] at h
  injection h with h
  rw [h]

/-- Witness for C8 on a concrete two-bucket selection set. -/
theorem claim8_witness :
    (SelectionSet.mk [("Cat", [leafField "name"]), ("Dog", [leafField "name"])]).merge
      (.mk [("Cat", [leafField "name"]), ("Dog", [leafField "name"])]) [] =
      some (.mk [("Cat", [leafField "name"]), ("Dog", [leafField "name"])]) :=
  (claim8_merge_idempotent _ (by decide) (by decide)).1

end GqlAst
